import Mathlib

/-!
Verification of the Topname enum-string mapping engine.

The C++ sources embedded here are `src/include/Topname/Topname.hpp`
(the `EnumString` class: djb2 hash, open-addressing hash index of size
`2N` with sentinel hash `0`, linear-probe insertion and lookup, linear
case-insensitive and value-to-label scans, enumeration) and
`src/include/Jolene/Jolene_utils.h` (`string_to_enum`).

Labels are modelled as lists of raw byte values (`List Nat`), matching
the spec's description of the hash as running over the raw bytes of the
label.  Enum values are modelled by an arbitrary type `V` with decidable
equality and a default element (the C++ hash table value-initializes its
slots, which zero-initializes the stored enum value).

C++ code that throws is modelled with an explicit result type `Res`;
behaviour that is undefined in the C++ source (the modulo by a zero
table size in `to_enum` when `N = 0`, and a probe loop that never
terminates) is marked by the distinguished result `Res.ub`.
-/

namespace Topname

/-- A label: the raw bytes of the C++ `std::string_view`. -/
abbrev Label := List Nat

/-- `Topname::hash` (Topname.hpp:66-72): the djb2 hash.
Each step is `hash = ((hash << 5) + hash) + ch` in `uint32_t`
arithmetic, starting from the seed `5381`. -/
def hash32 (s : Label) : Nat :=
  s.foldl (fun h c => ((h <<< 5) + h + c) % 4294967296) 5381

/-- `std::tolower` on a byte value (C locale): ASCII upper-case letters
map to the corresponding lower-case letter, everything else is fixed. -/
def toLowerByte (c : Nat) : Nat := if 65 ≤ c ∧ c ≤ 90 then c + 32 else c

/-- `Topname::case_insensitive_equal` (Topname.hpp:81-86):
`std::ranges::equal` with the predicate `tolower c1 == tolower c2`. -/
def case_insensitive_equal : Label → Label → Bool
  | [], [] => true
  | c1 :: a, c2 :: b => (toLowerByte c1 == toLowerByte c2) && case_insensitive_equal a b
  | _, _ => false

/-- Error codes of `EnumStringException` (Topname.hpp:24-29). -/
inductive ErrorCode where
  | InvalidEnumValue
  | InvalidStringValue
  | OutOfRange
deriving DecidableEq

/-- Result of an `EnumString` operation: a returned value, a thrown
`EnumStringException` with its error code, or undefined behaviour
(`ub`: modulo by zero when the table is empty, or a probe loop that
never terminates). -/
inductive Res (α : Type) where
  | ok (a : α)
  | err (e : ErrorCode)
  | ub
deriving DecidableEq

section Table

variable {V : Type} [DecidableEq V] [Inhabited V]

/-- Reading `hash_table[i]` (a slot holds `(storedHash, value)`;
the table is value-initialized, so out-of-range reads — which never
happen on the C++ side — default to the empty slot `(0, default)`). -/
def slotAt (t : List (Nat × V)) (i : Nat) : Nat × V := t.getD i (0, default)

/-- The `while (hash_table[h].first != 0) h = (h + 1) % HASH_TABLE_SIZE;`
loop of `build_hash_table` (Topname.hpp:118-120), returning the index of
the first empty slot reached from `h`.  The C++ loop is unbounded; it is
modelled with explicit fuel, `none` meaning the loop never terminates. -/
def probeInsert (t : List (Nat × V)) : Nat → Nat → Option Nat
  | h, fuel + 1 =>
    if (slotAt t h).1 ≠ 0 then probeInsert t ((h + 1) % t.length) fuel else some h
  | _, 0 => none

/-- One iteration of the `for` loop of `build_hash_table`
(Topname.hpp:116-122): probe linearly from `hash(label) % HASH_TABLE_SIZE`
and store `(hash(label), value)` in the first empty slot.  The fuel
`t.length` is enough for every probe the build performs (see the
termination theorem); should it run out, the table is left unchanged. -/
def insertEntry (t : List (Nat × V)) (e : V × Label) : List (Nat × V) :=
  match probeInsert t (hash32 e.2 % t.length) t.length with
  | some s => t.set s (hash32 e.2, e.1)
  | none => t

/-- `EnumString::build_hash_table` (Topname.hpp:115-123) run on the
value-initialized table of `HASH_TABLE_SIZE = N * 2` slots
(Topname.hpp:109-110): each entry is inserted in insertion order. -/
def build_hash_table (m : List (V × Label)) : List (Nat × V) :=
  m.foldl insertEntry (List.replicate (m.length * 2) (0, default))

/-- The `while (hash_table[h].first != 0)` lookup loop of `to_enum`
(Topname.hpp:150-155): at each occupied slot, return its value if its
stored hash equals the query hash, otherwise step to `(h+1) % size`;
reaching an empty slot throws `InvalidStringValue`.  Fuel as in
`probeInsert`. -/
def probeFind (t : List (Nat × V)) (hv : Nat) : Nat → Nat → Res V
  | h, fuel + 1 =>
    if (slotAt t h).1 ≠ 0 then
      if (slotAt t h).1 = hv then .ok (slotAt t h).2
      else probeFind t hv ((h + 1) % t.length) fuel
    else .err .InvalidStringValue
  | _, 0 => .ub

/-- `EnumString::to_enum` (Topname.hpp:148-158).  With `N = 0` the C++
computes `hash(value) % 0` — division by zero, undefined behaviour —
modelled by the explicit `ub` branch. -/
def to_enum (t : List (Nat × V)) (q : Label) : Res V :=
  if t.length = 0 then .ub
  else probeFind t (hash32 q) (hash32 q % t.length) t.length

/-- `EnumString::to_enum_insensitive` (Topname.hpp:169-180):
`std::ranges::find_if` over the mappings with
`case_insensitive_equal(pair.string_val, value)`. -/
def to_enum_insensitive (m : List (V × Label)) (q : Label) : Res V :=
  match m.find? (fun p => case_insensitive_equal p.2 q) with
  | some p => .ok p.1
  | none => .err .InvalidStringValue

/-- `EnumString::to_string` (Topname.hpp:189-198): `std::ranges::find_if`
over the mappings with `pair.enum_val == value`. -/
def to_string (m : List (V × Label)) (v : V) : Res Label :=
  match m.find? (fun p => p.1 == v) with
  | some p => .ok p.2
  | none => .err .InvalidEnumValue

/-- `EnumString::get_enum_all` (Topname.hpp:205-211): `res[i] =
mappings[i].enum_val` for `i = 0, …, N-1`. -/
def get_enum_all (m : List (V × Label)) : List V :=
  (List.range m.length).map (fun i => (m.getD i (default, [])).1)

/-- Modelled from the spec: `allLabels()` returns the labels in
insertion order.  The C++ `get_string_all` (Topname.hpp:218-224) is
ill-formed — it declares `res` as `std::array<E, N>` yet assigns
`mappings[i].string_val` into it and returns it as
`std::array<std::string_view, N>` — so the evident intent (its doc
comment and the spec) is modelled: `res[i] = mappings[i].string_val`. -/
def get_string_all (m : List (V × Label)) : List Label :=
  (List.range m.length).map (fun i => (m.getD i (default, [])).2)

/-- Number of occupied (nonzero-hash) slots of a hash table. -/
def nzCount (t : List (Nat × V)) : Nat := t.countP (fun p => p.1 != 0)

/-- The intermediate hash table the build loop holds after inserting the
entries of `pre`, while building the table for the full list `m`. -/
def tableBefore (m pre : List (V × Label)) : List (Nat × V) :=
  pre.foldl insertEntry (List.replicate (m.length * 2) (0, default))

end Table

/-- ASCII upper-casing of a byte (the spec's `l.toUpper()`): lower-case
letters map to upper case, everything else is fixed. -/
def toUpperByte (c : Nat) : Nat := if 97 ≤ c ∧ c ≤ 122 then c - 32 else c

/-- Stated from the spec for the refinement claim about the hash
function: "a 32-bit multiplicative string hash (seed 5381, each step
`hash = hash*33 + byte`), applied over the raw bytes of the label". -/
def spec_hash (s : Label) : Nat :=
  s.foldl (fun h c => (h * 33 + c) % 4294967296) 5381

section SpecTable

variable {V : Type} [DecidableEq V] [Inhabited V]

/-- Stated from the spec for the refinement claim about construction:
"compute `h = hash(label) mod tableSize`; probe linearly
(`h = (h+1) mod tableSize`) while the slot is occupied (not sentinel),
then store `(hash(label), value)` in the first empty slot found".  The
first empty slot is the first probe offset `k` whose slot holds the
sentinel hash `0`. -/
def spec_insert (t : List (Nat × V)) (e : V × Label) : List (Nat × V) :=
  match (List.range t.length).find?
      (fun k => (slotAt t ((spec_hash e.2 % t.length + k) % t.length)).1 == 0) with
  | some k => t.set ((spec_hash e.2 % t.length + k) % t.length) (spec_hash e.2, e.1)
  | none => t

/-- Stated from the spec: "Table size = `2N` slots, all initialized to
the empty sentinel.  For each entry in insertion order, …" (§4.2). -/
def spec_build (m : List (V × Label)) : List (Nat × V) :=
  m.foldl spec_insert (List.replicate (m.length * 2) (0, default))

/-- The slot the lookup probe visits at offset `i` for query `q` on the
hash index built from `m` (the index has `2N` slots). -/
def probePos (m : List (V × Label)) (q : Label) (i : Nat) : Nat × V :=
  slotAt (build_hash_table m) ((hash32 q % (2 * m.length) + i) % (2 * m.length))

/-- The spec's lookup contract (§4.2): the probe starts at
`hash(q) mod 2N`, passes only occupied slots whose stored hash differs
from `hash(q)`, and the first other slot decides: an empty slot fails
with `InvalidStringValue` (the spec's `InvalidLabel`), a slot whose
stored hash equals `hash(q)` returns that slot's value. -/
def lookupContract (m : List (V × Label)) (q : Label) : Prop :=
  ∃ k < 2 * m.length,
    (∀ i < k, (probePos m q i).1 ≠ 0 ∧ (probePos m q i).1 ≠ hash32 q) ∧
    (((probePos m q k).1 = 0 ∧
        to_enum (build_hash_table m) q = .err .InvalidStringValue) ∨
      ((probePos m q k).1 ≠ 0 ∧ (probePos m q k).1 = hash32 q ∧
        to_enum (build_hash_table m) q = .ok (probePos m q k).2))

/-- The spec's case-insensitive lookup contract (§4.3): a scan of the
pair table in insertion order under ASCII case folding; the first match
(if any) decides the result, otherwise the lookup fails. -/
def insensitiveContract (m : List (V × Label)) (q : Label) : Prop :=
  (∃ pre p post, m = pre ++ p :: post ∧
      (∀ r ∈ pre, r.2.map toLowerByte ≠ q.map toLowerByte) ∧
      p.2.map toLowerByte = q.map toLowerByte ∧
      to_enum_insensitive m q = .ok p.1) ∨
    ((∀ p ∈ m, p.2.map toLowerByte ≠ q.map toLowerByte) ∧
      to_enum_insensitive m q = .err .InvalidStringValue)

/-- The spec's value-to-label contract (§4.1): the first entry in
insertion order whose value equals the argument decides the result, and
the lookup fails with `InvalidEnumValue` (the spec's `InvalidValue`)
exactly when no entry has that value. -/
def toStringContract (m : List (V × Label)) (v : V) : Prop :=
  (∃ pre l post, m = pre ++ (v, l) :: post ∧ (∀ p ∈ pre, p.1 ≠ v) ∧
      to_string m v = .ok l) ∨
    ((∀ p ∈ m, p.1 ≠ v) ∧ to_string m v = .err .InvalidEnumValue)

/-- Termination of the build loop: for every entry, the linear probe
performed while inserting it (starting from the table state left by the
earlier entries) reaches an empty slot within `2N` steps. -/
def buildStepsTerminate (m : List (V × Label)) : Prop :=
  ∀ pre e post, m = pre ++ e :: post →
    (probeInsert (tableBefore m pre)
      (hash32 e.2 % (tableBefore m pre).length)
      (tableBefore m pre).length).isSome

/-- Lookup as a function of the query's 32-bit hash alone: `to_enum`
factors through `hash32`, which is the spec's statement that slot
equality "is decided by comparing hashes only, never by re-comparing
the label text". -/
def hashOnlyLookup (t : List (Nat × V)) (hv : Nat) : Res V :=
  if t.length = 0 then .ub
  else probeFind t hv (hv % t.length) t.length

end SpecTable

end Topname

namespace Jolene

/-- `string_to_enum` of `Jolene_utils.h` (lines 51-57), the `toValueFirst`
linear scan.  As written the C++ is ill-formed (it returns `it`, which is
never declared — the `std::find_if` call present in the neighbouring
`enum_to_string` is missing); the evident intent is modelled: the first
pair whose label equals the query, if any. -/
def string_to_enum {V : Type} (names : List (V × Topname.Label)) (s : Topname.Label) :
    Option V :=
  (names.find? (fun p => p.2 == s)).map (fun p => p.1)

/-- Modelled from the spec: `toValuesAll(query)` — absent from the
sources — "returns every value whose label equals `query`, preserving
insertion order". -/
def toValuesAll {V : Type} (names : List (V × Topname.Label)) (s : Topname.Label) :
    List V :=
  match names with
  | [] => []
  | p :: rest => if p.2 == s then p.1 :: toValuesAll rest s else toValuesAll rest s

end Jolene

namespace Topname

section Lemmas

variable {V : Type} [DecidableEq V] [Inhabited V]

theorem idx_shift (n h i : Nat) : ((h + 1) % n + i) % n = (h + (i + 1)) % n := by
  rw [Nat.mod_add_mod]
  congr 1
  omega

theorem idx_zero (n h : Nat) (hh : h < n) : (h + 0) % n = h := by
  rw [Nat.add_zero, Nat.mod_eq_of_lt hh]

theorem length_insertEntry (t : List (Nat × V)) (e : V × Label) :
    (insertEntry t e).length = t.length := by
  unfold insertEntry
  cases probeInsert t (hash32 e.2 % t.length) t.length with
  | none => rfl
  | some s => simp [List.length_set]

theorem length_foldl_insert (l : List (V × Label)) (t : List (Nat × V)) :
    (l.foldl insertEntry t).length = t.length := by
  induction l generalizing t with
  | nil => rfl
  | cons e l ih => rw [List.foldl_cons, ih, length_insertEntry]

theorem length_build (m : List (V × Label)) :
    (build_hash_table m).length = m.length * 2 := by
  unfold build_hash_table
  rw [length_foldl_insert, List.length_replicate]

theorem slotAt_set_ne (t : List (Nat × V)) (s j : Nat) (x : Nat × V) (h : s ≠ j) :
    slotAt (t.set s x) j = slotAt t j := by
  unfold slotAt
  rw [List.getD_eq_getElem?_getD, List.getD_eq_getElem?_getD, List.getElem?_set_ne h]

theorem slotAt_set_self (t : List (Nat × V)) (s : Nat) (x : Nat × V) (h : s < t.length) :
    slotAt (t.set s x) s = x := by
  unfold slotAt
  rw [List.getD_eq_getElem?_getD, List.getElem?_set_self h]
  rfl

theorem slotAt_replicate (n j : Nat) :
    slotAt (List.replicate n ((0 : Nat), (default : V))) j = (0, default) := by
  unfold slotAt
  rw [List.getD_eq_getElem?_getD, List.getElem?_replicate]
  split <;> rfl

theorem probeInsert_spec (t : List (Nat × V)) :
    ∀ fuel h s, h < t.length → probeInsert t h fuel = some s →
      ∃ k < fuel, s = (h + k) % t.length ∧ (slotAt t s).1 = 0 ∧
        ∀ i < k, (slotAt t ((h + i) % t.length)).1 ≠ 0 := by
  intro fuel
  induction fuel with
  | zero =>
    intro h s _ hps
    simp [probeInsert] at hps
  | succ f ih =>
    intro h s hh hps
    simp only [probeInsert] at hps
    split at hps
    · have hhn : (h + 1) % t.length < t.length := Nat.mod_lt _ (by omega)
      obtain ⟨k, hk, hs, hz, hpath⟩ := ih ((h + 1) % t.length) s hhn hps
      refine ⟨k + 1, by omega, ?_, hz, ?_⟩
      · rw [hs, idx_shift]
      · intro i hi
        cases i with
        | zero =>
          rw [idx_zero t.length h hh]
          assumption
        | succ i =>
          have := hpath i (by omega)
          rw [idx_shift] at this
          exact this
    · cases hps
      refine ⟨0, by omega, ?_, ?_, ?_⟩
      · rw [idx_zero t.length h hh]
      · omega
      · intro i hi
        omega

theorem probeInsert_some_facts (t : List (Nat × V)) (e : V × Label) (s : Nat)
    (hps : probeInsert t (hash32 e.2 % t.length) t.length = some s) :
    0 < t.length ∧ s < t.length ∧ (slotAt t s).1 = 0 := by
  have hlen : 0 < t.length := by
    by_contra hl
    have h0 : t.length = 0 := by omega
    rw [h0] at hps
    simp [probeInsert] at hps
  obtain ⟨k, _, hs, hz, _⟩ :=
    probeInsert_spec t t.length (hash32 e.2 % t.length) s (Nat.mod_lt _ hlen) hps
  exact ⟨hlen, by rw [hs]; exact Nat.mod_lt _ hlen, hz⟩

theorem insertEntry_preserve (t : List (Nat × V)) (e : V × Label) (j : Nat)
    (hj : (slotAt t j).1 ≠ 0) : slotAt (insertEntry t e) j = slotAt t j := by
  unfold insertEntry
  cases hps : probeInsert t (hash32 e.2 % t.length) t.length with
  | none => rfl
  | some s =>
    obtain ⟨_, _, hz⟩ := probeInsert_some_facts t e s hps
    apply slotAt_set_ne
    intro hsj
    rw [hsj] at hz
    exact hj hz

theorem foldl_insert_preserve (l : List (V × Label)) (t : List (Nat × V)) (j : Nat)
    (hj : (slotAt t j).1 ≠ 0) :
    slotAt (l.foldl insertEntry t) j = slotAt t j := by
  induction l generalizing t with
  | nil => rfl
  | cons e l ih =>
    have hpres := insertEntry_preserve t e j hj
    rw [List.foldl_cons, ih (insertEntry t e) (by rw [hpres]; exact hj), hpres]

theorem insertEntry_hash_inv (t : List (Nat × V)) (e : V × Label) (H : Nat) (v : V)
    (he : hash32 e.2 = H → e.1 = v)
    (ht : ∀ j, (slotAt t j).1 = H → (slotAt t j).2 = v) :
    ∀ j, (slotAt (insertEntry t e) j).1 = H → (slotAt (insertEntry t e) j).2 = v := by
  intro j
  unfold insertEntry
  cases hps : probeInsert t (hash32 e.2 % t.length) t.length with
  | none => exact ht j
  | some s =>
    obtain ⟨_, hs, _⟩ := probeInsert_some_facts t e s hps
    by_cases hsj : s = j
    · subst hsj
      rw [slotAt_set_self t s _ hs]
      exact he
    · rw [slotAt_set_ne t s j _ hsj]
      exact ht j

theorem foldl_hash_inv (l : List (V × Label)) (t : List (Nat × V)) (H : Nat) (v : V)
    (hl : ∀ p ∈ l, hash32 p.2 = H → p.1 = v)
    (ht : ∀ j, (slotAt t j).1 = H → (slotAt t j).2 = v) :
    ∀ j, (slotAt (l.foldl insertEntry t) j).1 = H →
      (slotAt (l.foldl insertEntry t) j).2 = v := by
  induction l generalizing t with
  | nil => exact ht
  | cons e l ih =>
    rw [List.foldl_cons]
    exact ih (insertEntry t e) (fun p hp => hl p (List.mem_cons_of_mem e hp))
      (insertEntry_hash_inv t e H v (hl e (List.mem_cons_self e l)) ht)

theorem build_hash_inv (m : List (V × Label)) (v : V) (l : Label)
    (hH : hash32 l ≠ 0)
    (huniq : ∀ p ∈ m, hash32 p.2 = hash32 l → p = (v, l)) :
    ∀ j, (slotAt (build_hash_table m) j).1 = hash32 l →
      (slotAt (build_hash_table m) j).2 = v := by
  apply foldl_hash_inv
  · intro p hp hph
    rw [huniq p hp hph]
  · intro j hj
    rw [slotAt_replicate] at hj
    exact absurd hj.symm hH

theorem nzCount_insertEntry (t : List (Nat × V)) (e : V × Label) :
    nzCount (insertEntry t e) ≤ nzCount t + 1 := by
  unfold insertEntry
  cases hps : probeInsert t (hash32 e.2 % t.length) t.length with
  | none => exact Nat.le_succ _
  | some s =>
    obtain ⟨_, hs, _⟩ := probeInsert_some_facts t e s hps
    unfold nzCount
    rw [List.countP_set _ _ _ _ hs]
    split_ifs <;> omega

theorem nzCount_foldl (l : List (V × Label)) (t : List (Nat × V)) :
    nzCount (l.foldl insertEntry t) ≤ nzCount t + l.length := by
  induction l generalizing t with
  | nil => simp
  | cons e l ih =>
    rw [List.foldl_cons]
    have h1 := ih (insertEntry t e)
    have h2 := nzCount_insertEntry t e
    simp only [List.length_cons]
    omega

theorem nzCount_replicate (n : Nat) :
    nzCount (List.replicate n ((0 : Nat), (default : V))) = 0 := by
  induction n with
  | zero => rfl
  | succ n ih =>
    rw [List.replicate_succ]
    unfold nzCount at ih ⊢
    rw [List.countP_cons]
    simp [ih]

theorem exists_zero_slot (t : List (Nat × V)) (hc : nzCount t < t.length) :
    ∃ j < t.length, (slotAt t j).1 = 0 := by
  by_contra hno
  push_neg at hno
  have hall : ∀ p ∈ t, (p.1 != 0) = true := by
    intro p hp
    obtain ⟨i, hi, hget⟩ := List.mem_iff_getElem.mp hp
    have hslot : slotAt t i = p := by
      unfold slotAt
      rw [List.getD_eq_getElem?_getD, List.getElem?_eq_getElem hi, hget]
      rfl
    have hnz := hno i hi
    rw [hslot] at hnz
    simpa using hnz
  have hlen : nzCount t = t.length := List.countP_eq_length.mpr hall
  omega

theorem probeInsert_reach (t : List (Nat × V)) :
    ∀ k fuel h, h < t.length → k < fuel →
      (slotAt t ((h + k) % t.length)).1 = 0 → (probeInsert t h fuel).isSome := by
  intro k
  induction k with
  | zero =>
    intro fuel h hh hk hz
    obtain ⟨f, rfl⟩ : ∃ f, fuel = f + 1 := ⟨fuel - 1, by omega⟩
    rw [idx_zero t.length h hh] at hz
    simp [probeInsert, hz]
  | succ k ih =>
    intro fuel h hh hk hz
    obtain ⟨f, rfl⟩ : ∃ f, fuel = f + 1 := ⟨fuel - 1, by omega⟩
    simp only [probeInsert]
    split
    · apply ih f ((h + 1) % t.length) (Nat.mod_lt _ (by omega)) (by omega)
      rw [idx_shift]
      exact hz
    · simp

theorem exists_probe_zero (t : List (Nat × V)) (h j : Nat)
    (hh : h < t.length) (hj : j < t.length) (hz : (slotAt t j).1 = 0) :
    ∃ k < t.length, (slotAt t ((h + k) % t.length)).1 = 0 := by
  refine ⟨(j + t.length - h) % t.length, Nat.mod_lt _ (by omega), ?_⟩
  have hidx : (h + (j + t.length - h) % t.length) % t.length = j := by
    rw [Nat.add_mod_mod]
    have heq : h + (j + t.length - h) = j + t.length := by omega
    rw [heq, Nat.add_mod_right, Nat.mod_eq_of_lt hj]
  rw [hidx]
  exact hz

theorem probeInsert_isSome (t : List (Nat × V)) (h : Nat) (hh : h < t.length)
    (hex : ∃ j < t.length, (slotAt t j).1 = 0) :
    (probeInsert t h t.length).isSome := by
  obtain ⟨j, hj, hz⟩ := hex
  obtain ⟨k, hk, hkz⟩ := exists_probe_zero t h j hh hj hz
  exact probeInsert_reach t k t.length h hh hk hkz

theorem probeFind_dichotomy (t : List (Nat × V)) (hv : Nat) :
    ∀ fuel h, h < t.length →
      (∃ i < fuel, (slotAt t ((h + i) % t.length)).1 = 0 ∨
        (slotAt t ((h + i) % t.length)).1 = hv) →
      ∃ k < fuel,
        (∀ i < k, (slotAt t ((h + i) % t.length)).1 ≠ 0 ∧
          (slotAt t ((h + i) % t.length)).1 ≠ hv) ∧
        (((slotAt t ((h + k) % t.length)).1 = 0 ∧
            probeFind t hv h fuel = .err .InvalidStringValue) ∨
          ((slotAt t ((h + k) % t.length)).1 ≠ 0 ∧
            (slotAt t ((h + k) % t.length)).1 = hv ∧
            probeFind t hv h fuel = .ok (slotAt t ((h + k) % t.length)).2)) := by
  intro fuel
  induction fuel with
  | zero =>
    intro h _ hex
    obtain ⟨i, hi, _⟩ := hex
    omega
  | succ f ih =>
    intro h hh hex
    by_cases h0 : (slotAt t h).1 = 0
    · refine ⟨0, by omega, fun i hi => absurd hi (by omega), ?_⟩
      left
      rw [idx_zero t.length h hh]
      exact ⟨h0, by simp [probeFind, h0]⟩
    · by_cases hmatch : (slotAt t h).1 = hv
      · refine ⟨0, by omega, fun i hi => absurd hi (by omega), ?_⟩
        right
        rw [idx_zero t.length h hh]
        refine ⟨h0, hmatch, ?_⟩
        simp only [probeFind]
        rw [if_pos h0, if_pos hmatch]
      · have hex2 : ∃ i < f, (slotAt t (((h + 1) % t.length + i) % t.length)).1 = 0 ∨
            (slotAt t (((h + 1) % t.length + i) % t.length)).1 = hv := by
          obtain ⟨i, hi, hio⟩ := hex
          cases i with
          | zero =>
            rw [idx_zero t.length h hh] at hio
            cases hio with
            | inl hl => exact absurd hl h0
            | inr hr => exact absurd hr hmatch
          | succ i =>
            refine ⟨i, by omega, ?_⟩
            rw [idx_shift]
            exact hio
        obtain ⟨k, hk, hpath, hres⟩ := ih ((h + 1) % t.length) (Nat.mod_lt _ (by omega)) hex2
        refine ⟨k + 1, by omega, ?_, ?_⟩
        · intro i hi
          cases i with
          | zero =>
            rw [idx_zero t.length h hh]
            exact ⟨h0, hmatch⟩
          | succ i =>
            have hp := hpath i (by omega)
            rw [idx_shift] at hp
            exact hp
        · rw [idx_shift] at hres
          have hstep : probeFind t hv h (f + 1) = probeFind t hv ((h + 1) % t.length) f := by
            simp [probeFind, h0, hmatch]
          rw [hstep]
          exact hres

theorem lookup_built (m : List (V × Label)) (v : V) (l : Label)
    (hmem : (v, l) ∈ m) (hH : hash32 l ≠ 0)
    (huniq : ∀ p ∈ m, hash32 p.2 = hash32 l → p = (v, l)) :
    to_enum (build_hash_table m) l = .ok v := by
  obtain ⟨pre, post, hsplit⟩ := List.append_of_mem hmem
  have hbuild : build_hash_table m =
      post.foldl insertEntry (insertEntry (tableBefore m pre) (v, l)) := by
    rw [hsplit]
    unfold build_hash_table tableBefore
    rw [List.foldl_append, List.foldl_cons]
  have hmlen : 0 < m.length := by
    rw [hsplit, List.length_append, List.length_cons]
    omega
  have hprelen : pre.length + 1 ≤ m.length := by
    rw [hsplit, List.length_append, List.length_cons]
    omega
  have ht1len : (tableBefore m pre).length = m.length * 2 := by
    unfold tableBefore
    rw [length_foldl_insert, List.length_replicate]
  have hcnt : nzCount (tableBefore m pre) ≤ pre.length := by
    unfold tableBefore
    have h0 := nzCount_foldl pre (List.replicate (m.length * 2) ((0 : Nat), (default : V)))
    rw [nzCount_replicate] at h0
    omega
  have hzs : ∃ j < (tableBefore m pre).length, (slotAt (tableBefore m pre) j).1 = 0 :=
    exists_zero_slot (tableBefore m pre) (by omega)
  have hh0 : hash32 l % (tableBefore m pre).length < (tableBefore m pre).length :=
    Nat.mod_lt _ (by omega)
  obtain ⟨s, hps⟩ := Option.isSome_iff_exists.mp
    (probeInsert_isSome (tableBefore m pre) (hash32 l % (tableBefore m pre).length) hh0 hzs)
  obtain ⟨k, hk, hseq, hszero, hpath⟩ :=
    probeInsert_spec (tableBefore m pre) (tableBefore m pre).length
      (hash32 l % (tableBefore m pre).length) s hh0 hps
  have hslt : s < (tableBefore m pre).length := by
    rw [hseq]
    exact Nat.mod_lt _ (by omega)
  have ht2 : insertEntry (tableBefore m pre) (v, l) =
      (tableBefore m pre).set s (hash32 l, v) := by
    unfold insertEntry
    simp only [hps]
  have hs2 : slotAt ((tableBefore m pre).set s (hash32 l, v)) s = (hash32 l, v) :=
    slotAt_set_self _ s _ hslt
  have hfin : slotAt (build_hash_table m) s = (hash32 l, v) := by
    rw [hbuild, ht2]
    rw [foldl_insert_preserve post _ s (by rw [hs2]; exact hH)]
    exact hs2
  have hpathfin : ∀ i < k,
      slotAt (build_hash_table m)
          ((hash32 l % (tableBefore m pre).length + i) % (tableBefore m pre).length) =
        slotAt (tableBefore m pre)
          ((hash32 l % (tableBefore m pre).length + i) % (tableBefore m pre).length) := by
    intro i hi
    have hne : s ≠ (hash32 l % (tableBefore m pre).length + i) % (tableBefore m pre).length := by
      intro hcontra
      have hocc := hpath i hi
      rw [← hcontra] at hocc
      exact hocc hszero
    have hkeep : slotAt ((tableBefore m pre).set s (hash32 l, v))
        ((hash32 l % (tableBefore m pre).length + i) % (tableBefore m pre).length) =
        slotAt (tableBefore m pre)
          ((hash32 l % (tableBefore m pre).length + i) % (tableBefore m pre).length) :=
      slotAt_set_ne _ s _ _ hne
    rw [hbuild, ht2]
    rw [foldl_insert_preserve post _ _ (by rw [hkeep]; exact hpath i hi), hkeep]
  have hblen : (build_hash_table m).length = (tableBefore m pre).length := by
    rw [length_build, ht1len]
  have htne : to_enum (build_hash_table m) l =
      probeFind (build_hash_table m) (hash32 l)
        (hash32 l % (build_hash_table m).length) (build_hash_table m).length := by
    unfold to_enum
    rw [if_neg (by omega)]
  have hstop : ∃ i < (build_hash_table m).length,
      (slotAt (build_hash_table m)
        ((hash32 l % (build_hash_table m).length + i) % (build_hash_table m).length)).1 = 0 ∨
      (slotAt (build_hash_table m)
        ((hash32 l % (build_hash_table m).length + i) % (build_hash_table m).length)).1 =
        hash32 l := by
    refine ⟨k, by omega, Or.inr ?_⟩
    rw [hblen, ← hseq, hfin]
  obtain ⟨k2, hk2, hpath2, hres2⟩ :=
    probeFind_dichotomy (build_hash_table m) (hash32 l) (build_hash_table m).length
      (hash32 l % (build_hash_table m).length) (Nat.mod_lt _ (by omega)) hstop
  rw [htne]
  rcases hres2 with ⟨hz2, hr2⟩ | ⟨hnz2, hm2, hr2⟩
  · exfalso
    rcases Nat.lt_trichotomy k2 k with hlt | heq | hgt
    · have hocc := hpath k2 hlt
      have hpf := hpathfin k2 hlt
      rw [hblen, hpf] at hz2
      exact hocc hz2
    · subst heq
      rw [hblen, ← hseq, hfin] at hz2
      exact hH hz2
    · have hns := hpath2 k hgt
      rw [hblen, ← hseq, hfin] at hns
      exact hns.2 rfl
  · rw [hr2]
    congr 1
    exact build_hash_inv m v l hH huniq _ hm2

theorem lookupContract_holds (m : List (V × Label)) (q : Label) (hm : m ≠ []) :
    lookupContract m q := by
  have hmlen : 0 < m.length := List.length_pos.mpr hm
  have hblen : (build_hash_table m).length = m.length * 2 := length_build m
  have hcnt : nzCount (build_hash_table m) ≤ m.length := by
    unfold build_hash_table
    have h0 := nzCount_foldl m (List.replicate (m.length * 2) ((0 : Nat), (default : V)))
    rw [nzCount_replicate] at h0
    omega
  obtain ⟨j, hj, hjz⟩ := exists_zero_slot (build_hash_table m) (by omega)
  have hh : hash32 q % (build_hash_table m).length < (build_hash_table m).length :=
    Nat.mod_lt _ (by omega)
  obtain ⟨k0, hk0, hk0z⟩ := exists_probe_zero (build_hash_table m) _ j hh hj hjz
  obtain ⟨k, hk, hpath, hres⟩ := probeFind_dichotomy (build_hash_table m) (hash32 q)
    (build_hash_table m).length (hash32 q % (build_hash_table m).length) hh
    ⟨k0, hk0, Or.inl hk0z⟩
  have hpp : ∀ i, probePos m q i =
      slotAt (build_hash_table m)
        ((hash32 q % (build_hash_table m).length + i) % (build_hash_table m).length) := by
    intro i
    unfold probePos
    rw [hblen, Nat.mul_comm 2 m.length]
  have hte : to_enum (build_hash_table m) q =
      probeFind (build_hash_table m) (hash32 q)
        (hash32 q % (build_hash_table m).length) (build_hash_table m).length := by
    unfold to_enum
    rw [if_neg (by omega)]
  refine ⟨k, by omega, ?_, ?_⟩
  · intro i hi
    rw [hpp i]
    exact hpath i hi
  · rw [hpp k, hte]
    exact hres

theorem to_enum_built_cases (m : List (V × Label)) (q : Label) (hm : m ≠ []) :
    (∃ v, to_enum (build_hash_table m) q = .ok v) ∨
      to_enum (build_hash_table m) q = .err .InvalidStringValue := by
  obtain ⟨k, _, _, hres⟩ := lookupContract_holds m q hm
  rcases hres with ⟨_, hr⟩ | ⟨_, _, hr⟩
  · right
    exact hr
  · left
    exact ⟨_, hr⟩

theorem foldl_congr_fn {α β : Type} (f g : β → α → β) (hfg : ∀ b a, f b a = g b a) :
    ∀ (l : List α) (b : β), l.foldl f b = l.foldl g b := by
  intro l
  induction l with
  | nil => intro b; rfl
  | cons a l ih => intro b; rw [List.foldl_cons, List.foldl_cons, hfg, ih]

theorem spec_hash_eq (s : Label) : spec_hash s = hash32 s := by
  unfold spec_hash hash32
  apply foldl_congr_fn
  intro h c
  have hsh : h <<< 5 = h * 32 := by
    rw [Nat.shiftLeft_eq]
  rw [hsh]
  congr 1

theorem probeInsert_eq_find (t : List (Nat × V)) :
    ∀ fuel h, h < t.length →
      probeInsert t h fuel =
        ((List.range fuel).find? (fun k => (slotAt t ((h + k) % t.length)).1 == 0)).map
          (fun k => (h + k) % t.length) := by
  intro fuel
  induction fuel with
  | zero => intro h _; rfl
  | succ f ih =>
    intro h hh
    rw [List.range_succ_eq_map]
    by_cases h0 : (slotAt t h).1 = 0
    · rw [List.find?_cons_of_pos _ (by simp [Nat.mod_eq_of_lt hh, h0])]
      simp only [probeInsert]
      rw [if_neg (not_not_intro h0)]
      simp [Nat.mod_eq_of_lt hh]
    · rw [List.find?_cons_of_neg _ (by simp [Nat.mod_eq_of_lt hh, h0])]
      simp only [probeInsert]
      rw [if_pos h0]
      rw [ih ((h + 1) % t.length) (Nat.mod_lt _ (by omega))]
      rw [List.find?_map, Option.map_map]
      simp only [Function.comp_def, Nat.succ_eq_add_one, idx_shift]

theorem spec_insert_eq (t : List (Nat × V)) (e : V × Label) :
    spec_insert t e = insertEntry t e := by
  by_cases hlen : t.length = 0
  · unfold spec_insert insertEntry
    rw [hlen]
    rfl
  · unfold spec_insert insertEntry
    rw [spec_hash_eq]
    rw [probeInsert_eq_find t t.length (hash32 e.2 % t.length) (Nat.mod_lt _ (by omega))]
    cases hfind : (List.range t.length).find?
        (fun k => (slotAt t ((hash32 e.2 % t.length + k) % t.length)).1 == 0) with
    | none => rfl
    | some k => rfl

theorem spec_build_eq (m : List (V × Label)) : spec_build m = build_hash_table m := by
  unfold spec_build build_hash_table
  exact foldl_congr_fn spec_insert insertEntry spec_insert_eq m _

theorem toLowerByte_toUpperByte (c : Nat) : toLowerByte (toUpperByte c) = toLowerByte c := by
  unfold toLowerByte toUpperByte
  split_ifs <;> omega

theorem toLowerByte_toLowerByte (c : Nat) : toLowerByte (toLowerByte c) = toLowerByte c := by
  unfold toLowerByte
  split_ifs <;> omega

theorem map_lower_upper (l : Label) :
    (l.map toUpperByte).map toLowerByte = l.map toLowerByte := by
  rw [List.map_map]
  apply List.map_congr_left
  intro a _
  exact toLowerByte_toUpperByte a

theorem map_lower_lower (l : Label) :
    (l.map toLowerByte).map toLowerByte = l.map toLowerByte := by
  rw [List.map_map]
  apply List.map_congr_left
  intro a _
  exact toLowerByte_toLowerByte a

theorem ci_eq_iff_map (a b : Label) :
    case_insensitive_equal a b = true ↔ a.map toLowerByte = b.map toLowerByte := by
  induction a generalizing b with
  | nil => cases b <;> simp [case_insensitive_equal]
  | cons c a ih =>
    cases b with
    | nil => simp [case_insensitive_equal]
    | cons d b => simp [case_insensitive_equal, Bool.and_eq_true, beq_iff_eq, ih]

theorem insensitive_ok (m : List (V × Label)) (v : V) (l q : Label)
    (hmem : (v, l) ∈ m) (hq : case_insensitive_equal l q = true)
    (hci : ∀ p ∈ m, case_insensitive_equal p.2 q = true → p = (v, l)) :
    to_enum_insensitive m q = .ok v := by
  have hsome : (m.find? (fun p => case_insensitive_equal p.2 q)).isSome := by
    rw [List.find?_isSome]
    exact ⟨(v, l), hmem, hq⟩
  obtain ⟨y, hy⟩ := Option.isSome_iff_exists.mp hsome
  have hyq := List.find?_some hy
  have hym := List.mem_of_find?_eq_some hy
  have hyv : y = (v, l) := hci y hym hyq
  unfold to_enum_insensitive
  rw [hy, hyv]

theorem insensitiveContract_holds (m : List (V × Label)) (q : Label) :
    insensitiveContract m q := by
  induction m with
  | nil =>
    right
    exact ⟨by simp, rfl⟩
  | cons p m ih =>
    by_cases hp : case_insensitive_equal p.2 q = true
    · left
      refine ⟨[], p, m, rfl, by simp, (ci_eq_iff_map p.2 q).mp hp, ?_⟩
      unfold to_enum_insensitive
      rw [List.find?_cons_of_pos (p := fun (r : V × Label) => case_insensitive_equal r.2 q) _ hp]
    · have hmap : p.2.map toLowerByte ≠ q.map toLowerByte := by
        intro hc
        exact hp ((ci_eq_iff_map p.2 q).mpr hc)
      have hstep : to_enum_insensitive (p :: m) q = to_enum_insensitive m q := by
        unfold to_enum_insensitive
        rw [List.find?_cons_of_neg (p := fun (r : V × Label) => case_insensitive_equal r.2 q) _ hp]
      rcases ih with ⟨pre, r, post, hsplit, hpre, hr, hres⟩ | ⟨hall, hres⟩
      · left
        refine ⟨p :: pre, r, post, by rw [hsplit]; rfl, ?_, hr, by rw [hstep]; exact hres⟩
        intro r' hr'
        rcases List.mem_cons.mp hr' with h1 | h1
        · rw [h1]
          exact hmap
        · exact hpre r' h1
      · right
        refine ⟨?_, by rw [hstep]; exact hres⟩
        intro r hr
        rcases List.mem_cons.mp hr with h1 | h1
        · rw [h1]
          exact hmap
        · exact hall r h1

theorem toStringContract_holds (m : List (V × Label)) (v : V) :
    toStringContract m v := by
  induction m with
  | nil =>
    right
    exact ⟨by simp, rfl⟩
  | cons p m ih =>
    obtain ⟨pv, pl⟩ := p
    by_cases hp : pv = v
    · subst hp
      left
      refine ⟨[], pl, m, rfl, by simp, ?_⟩
      unfold to_string
      rw [List.find?_cons_of_pos _ (by simp)]
    · have hstep : to_string ((pv, pl) :: m) v = to_string m v := by
        unfold to_string
        rw [List.find?_cons_of_neg _ (by simp [hp])]
      rcases ih with ⟨pre, l, post, hsplit, hpre, hres⟩ | ⟨hall, hres⟩
      · left
        refine ⟨(pv, pl) :: pre, l, post, by rw [hsplit]; rfl, ?_, by rw [hstep]; exact hres⟩
        intro r hr
        rcases List.mem_cons.mp hr with h1 | h1
        · rw [h1]
          exact hp
        · exact hpre r h1
      · right
        refine ⟨?_, by rw [hstep]; exact hres⟩
        intro r hr
        rcases List.mem_cons.mp hr with h1 | h1
        · rw [h1]
          exact hp
        · exact hall r h1

theorem to_string_first (m : List (V × Label)) (v : V) (l : Label)
    (pre post : List (V × Label))
    (hsplit : m = pre ++ (v, l) :: post) (hpre : ∀ p ∈ pre, p.1 ≠ v) :
    to_string m v = .ok l := by
  unfold to_string
  rw [hsplit, List.find?_append]
  have hnone : pre.find? (fun p => p.1 == v) = none := by
    rw [List.find?_eq_none]
    intro x hx
    simp [hpre x hx]
  rw [hnone, List.find?_cons_of_pos _ (by simp)]
  rfl

theorem range_map_getD {α : Type} (l : List α) (d : α) :
    (List.range l.length).map (fun i => l.getD i d) = l := by
  induction l with
  | nil => rfl
  | cons a l ih =>
    rw [List.length_cons, List.range_succ_eq_map, List.map_cons, List.map_map]
    simp only [List.getD_cons_zero, Function.comp_def, Nat.succ_eq_add_one, List.getD_cons_succ]
    rw [ih]

theorem get_enum_all_eq (m : List (V × Label)) : get_enum_all m = m.map (fun p => p.1) := by
  unfold get_enum_all
  rw [show (fun i => (m.getD i ((default : V), ([] : Label))).1) =
      (fun p => p.1) ∘ (fun i => m.getD i ((default : V), ([] : Label))) from rfl]
  rw [← List.map_map, range_map_getD]

theorem get_string_all_eq (m : List (V × Label)) : get_string_all m = m.map (fun p => p.2) := by
  unfold get_string_all
  rw [show (fun i => (m.getD i ((default : V), ([] : Label))).2) =
      (fun p => p.2) ∘ (fun i => m.getD i ((default : V), ([] : Label))) from rfl]
  rw [← List.map_map, range_map_getD]

end Lemmas

end Topname

namespace Jolene

theorem toValuesAll_filter {V : Type} (names : List (V × Topname.Label)) (s : Topname.Label) :
    toValuesAll names s = (names.filter (fun p => p.2 == s)).map (fun p => p.1) := by
  induction names with
  | nil => rfl
  | cons p rest ih =>
    cases hp : (p.2 == s) <;> simp [toValuesAll, List.filter_cons, hp, ih]

theorem string_to_enum_head {V : Type} (names : List (V × Topname.Label)) (s : Topname.Label) :
    string_to_enum names s = (toValuesAll names s).head? := by
  induction names with
  | nil => rfl
  | cons p rest ih =>
    cases hp : (p.2 == s) with
    | true =>
      unfold string_to_enum toValuesAll
      rw [List.find?_cons_of_pos (p := fun (r : V × Topname.Label) => r.2 == s) _ hp]
      simp [hp]
    | false =>
      unfold string_to_enum toValuesAll
      rw [List.find?_cons_of_neg _ (by simp [hp])]
      simp only [hp]
      rw [if_neg (by simp)]
      exact ih

end Jolene

/-! ## Claim theorems -/

open Topname Jolene

/-- C1, counterexample.  The round-trip property as stated — for every
entry `(v, l)` whose label is unique across the table, `to_enum l`
returns `v` and `to_string v` returns `l` — fails on the code at three
concrete tables: (a) the labels "b!" (`[98, 33]`) and "aB" (`[97, 66]`)
share the djb2 hash `5863176`, so on `[(0, "b!"), (1, "aB")]` the unique
label "aB" resolves to `0`, not `1`; (b) on `[(0, "x"), (0, "y")]` the
unique label "y" (`[121]`) is not returned by `to_string 0`, which
returns the first entry's "x" (`[120]`); (c) the seven-byte label
`[3, 9, 4, 19, 26, 22, 8]` has djb2 hash `0`, the empty-slot sentinel,
so its singleton table stores it invisibly and `to_enum` fails on it. -/
theorem C1_counterexample :
    (((1 : Nat), ([97, 66] : Label)) ∈
        ([(0, [98, 33]), (1, [97, 66])] : List (Nat × Label)) ∧
      (([(0, [98, 33]), (1, [97, 66])] : List (Nat × Label)).filter
          (fun p => p.2 == [97, 66])).length = 1 ∧
      to_enum (build_hash_table ([(0, [98, 33]), (1, [97, 66])] : List (Nat × Label)))
        [97, 66] ≠ .ok 1 ∧
      to_enum (build_hash_table ([(0, [98, 33]), (1, [97, 66])] : List (Nat × Label)))
        [97, 66] = .ok 0) ∧
    (((0 : Nat), ([121] : Label)) ∈ ([(0, [120]), (0, [121])] : List (Nat × Label)) ∧
      (([(0, [120]), (0, [121])] : List (Nat × Label)).filter
          (fun p => p.2 == [121])).length = 1 ∧
      to_string ([(0, [120]), (0, [121])] : List (Nat × Label)) 0 ≠ .ok [121] ∧
      to_string ([(0, [120]), (0, [121])] : List (Nat × Label)) 0 = .ok [120]) ∧
    (((0 : Nat), ([3, 9, 4, 19, 26, 22, 8] : Label)) ∈
        ([(0, [3, 9, 4, 19, 26, 22, 8])] : List (Nat × Label)) ∧
      hash32 [3, 9, 4, 19, 26, 22, 8] = 0 ∧
      to_enum (build_hash_table ([(0, [3, 9, 4, 19, 26, 22, 8])] : List (Nat × Label)))
        [3, 9, 4, 19, 26, 22, 8] ≠ .ok 0 ∧
      to_enum (build_hash_table ([(0, [3, 9, 4, 19, 26, 22, 8])] : List (Nat × Label)))
        [3, 9, 4, 19, 26, 22, 8] = .err .InvalidStringValue) := by
  decide

/-- C1, amended: for every entry `(v, l)` such that no other entry's
label has the same djb2 hash as `l`, the hash of `l` is not the
empty-slot sentinel `0`, and `(v, l)` is the first entry whose value is
`v`, the round trip holds: `to_enum l` returns `v` and `to_string v`
returns `l`. -/
theorem C1_roundtrip_amended {V : Type} [DecidableEq V] [Inhabited V]
    (m : List (V × Label)) (v : V) (l : Label)
    (hfirst : ∃ pre post, m = pre ++ (v, l) :: post ∧ ∀ p ∈ pre, p.1 ≠ v)
    (hH : hash32 l ≠ 0)
    (huniq : ∀ p ∈ m, hash32 p.2 = hash32 l → p = (v, l)) :
    to_enum (build_hash_table m) l = .ok v ∧ to_string m v = .ok l := by
  obtain ⟨pre, post, hsplit, hpre⟩ := hfirst
  have hmem : (v, l) ∈ m := by
    rw [hsplit]
    exact List.mem_append_right _ (List.mem_cons_self _ _)
  exact ⟨lookup_built m v l hmem hH huniq, to_string_first m v l pre post hsplit hpre⟩

/-- Witness for the amended C1 at the table `[(0, "x"), (1, "y")]` and
its entry `(0, "x")`. -/
theorem C1_roundtrip_amended_witness :
    (∃ pre post, ([((0 : Nat), ([120] : Label)), (1, [121])] : List (Nat × Label)) =
        pre ++ ((0 : Nat), ([120] : Label)) :: post ∧ ∀ p ∈ pre, p.1 ≠ 0) ∧
    hash32 [120] ≠ 0 ∧
    (∀ p ∈ ([((0 : Nat), [120]), (1, [121])] : List (Nat × Label)),
      hash32 p.2 = hash32 [120] → p = (0, [120])) ∧
    (to_enum (build_hash_table ([((0 : Nat), [120]), (1, [121])] : List (Nat × Label)))
        [120] = .ok 0 ∧
      to_string ([((0 : Nat), [120]), (1, [121])] : List (Nat × Label)) 0 = .ok [120]) := by
  refine ⟨⟨[], [(1, [121])], rfl, by decide⟩, by decide, by decide, ?_⟩
  exact C1_roundtrip_amended _ 0 [120] ⟨[], [(1, [121])], rfl, by decide⟩ (by decide) (by decide)

/-- C2: on every table built from at least one entry, `to_enum` follows
the spec's probe contract — it probes linearly from `hash(q) mod 2N`,
passes only occupied slots whose stored hash differs from `hash(q)`,
returns the value of the first slot whose stored hash equals `hash(q)`,
and fails with `InvalidStringValue` exactly when the probe reaches an
empty (sentinel-0) slot — and it decides equality by hashes only: the
result factors through `hash32 q` (`hashOnlyLookup`), so the label text
is never re-compared. -/
theorem C2_lookup_contract {V : Type} [DecidableEq V] [Inhabited V]
    (e : V × Label) (m : List (V × Label)) (q : Label) :
    lookupContract (e :: m) q ∧
      to_enum (build_hash_table (e :: m)) q =
        hashOnlyLookup (build_hash_table (e :: m)) (hash32 q) := by
  exact ⟨lookupContract_holds (e :: m) q (by simp), rfl⟩

/-- C3: the hash-index construction of the code refines the spec's
description — the spec-side build (`2N` sentinel-initialized slots,
insertion in order into the first empty slot found by linear probing
from `hash(label) mod 2N`, storing `(hash(label), value)`, with the
seed-5381 multiplicative hash `hash = hash*33 + byte` over the raw
bytes) produces exactly the code's table, the spec hash equals the
code's shift-based djb2 hash, and the table has `2N` slots. -/
theorem C3_build_refines {V : Type} [DecidableEq V] [Inhabited V] :
    (∀ m : List (V × Label), spec_build m = build_hash_table m) ∧
      (∀ s : Label, spec_hash s = hash32 s) ∧
      (∀ m : List (V × Label), (build_hash_table m).length = m.length * 2) :=
  ⟨spec_build_eq, spec_hash_eq, length_build⟩

/-- C4 (on the modelled linear scans, the C++ `string_to_enum` being
ill-formed as written): `toValuesAll l` returns exactly the values of
the entries whose label equals `l`, in insertion order, and the `First`
variant returns the head of that sequence. -/
theorem C4_first_all {V : Type} (names : List (V × Label)) (s : Label) :
    toValuesAll names s = (names.filter (fun p => p.2 == s)).map (fun p => p.1) ∧
      string_to_enum names s = (toValuesAll names s).head? :=
  ⟨toValuesAll_filter names s, string_to_enum_head names s⟩

/-- C5: `to_enum_insensitive` scans the pair table in insertion order
comparing labels under ASCII case folding, returns the value of the
first matching entry, and fails with `InvalidStringValue` if no entry
matches. -/
theorem C5_insensitive_contract {V : Type} [DecidableEq V] [Inhabited V]
    (m : List (V × Label)) (q : Label) :
    insensitiveContract m q :=
  insensitiveContract_holds m q

/-- C6: `to_string` returns the label of the first entry in insertion
order whose value equals the argument, and fails with
`InvalidEnumValue` if and only if no entry has that value. -/
theorem C6_to_string_contract {V : Type} [DecidableEq V] [Inhabited V]
    (m : List (V × Label)) (v : V) :
    toStringContract m v ∧
      (to_string m v = .err .InvalidEnumValue ↔ ∀ p ∈ m, p.1 ≠ v) := by
  have hc := toStringContract_holds m v
  refine ⟨hc, ?_, ?_⟩
  · intro herr
    rcases hc with ⟨pre, l, post, hsplit, _, hres⟩ | ⟨hall, _⟩
    · rw [hres] at herr
      cases herr
    · exact hall
  · intro hall
    rcases hc with ⟨pre, l, post, hsplit, _, _⟩ | ⟨_, hres⟩
    · exfalso
      have hmem : (v, l) ∈ m := by
        rw [hsplit]
        exact List.mem_append_right _ (List.mem_cons_self _ _)
      exact hall (v, l) hmem rfl
    · exact hres

/-- C7, the code at the failing input: on the zero-entry table the two
linear lookups do fail with the matching error codes, but `to_enum`
reaches the unguarded `hash(q) % HASH_TABLE_SIZE` with
`HASH_TABLE_SIZE = 0` — a division by zero, undefined behaviour
(`Res.ub`) — instead of failing with `InvalidStringValue`. -/
theorem C7_zero_table :
    to_enum (build_hash_table ([] : List (Nat × Label))) [] = .ub ∧
      to_enum_insensitive ([] : List (Nat × Label)) [] = .err .InvalidStringValue ∧
      to_string ([] : List (Nat × Label)) 0 = .err .InvalidEnumValue :=
  ⟨rfl, rfl, rfl⟩

/-- C8, counterexample.  The agreement of the two lookup paths fails on
the code: (a) on `[(0, "ab"), (1, "AB")]` the entry `(1, "AB")` has
`to_enum "AB" = ok 1` while the case-insensitive lookup of its
upper-cased label returns `ok 0` (the earlier case-aliased entry);
(b) on `[(0, "b!"), (1, "aB")]` (a djb2 collision) the entry
`(1, "aB")` has case-insensitive lookup `ok 1` but `to_enum "aB" =
ok 0`; (c) on the singleton table of the hash-0 label
`[3, 9, 4, 19, 26, 22, 8]` the case-insensitive lookup succeeds while
`to_enum` fails, so the paths cannot agree. -/
theorem C8_counterexample :
    (to_enum (build_hash_table ([(0, [97, 98]), (1, [65, 66])] : List (Nat × Label)))
        [65, 66] = .ok 1 ∧
      to_enum_insensitive ([(0, [97, 98]), (1, [65, 66])] : List (Nat × Label))
        (([65, 66] : Label).map toUpperByte) = .ok 0) ∧
    (to_enum_insensitive ([(0, [98, 33]), (1, [97, 66])] : List (Nat × Label))
        (([97, 66] : Label).map toUpperByte) = .ok 1 ∧
      to_enum (build_hash_table ([(0, [98, 33]), (1, [97, 66])] : List (Nat × Label)))
        [97, 66] = .ok 0) ∧
    (to_enum_insensitive ([(0, [3, 9, 4, 19, 26, 22, 8])] : List (Nat × Label))
        (([3, 9, 4, 19, 26, 22, 8] : Label).map toUpperByte) = .ok 0 ∧
      to_enum (build_hash_table ([(0, [3, 9, 4, 19, 26, 22, 8])] : List (Nat × Label)))
        [3, 9, 4, 19, 26, 22, 8] = .err .InvalidStringValue) := by
  decide

/-- C8, amended: for every entry `(v, l)` such that no other entry's
label is case-insensitively equal to `l`, no other entry's label shares
the djb2 hash of `l`, and that hash is not the sentinel `0`, the
case-insensitive lookups of the upper-cased and lower-cased forms of
`l` and the hash lookup of `l` itself all resolve to `v`. -/
theorem C8_agreement_amended {V : Type} [DecidableEq V] [Inhabited V]
    (m : List (V × Label)) (v : V) (l : Label)
    (hmem : (v, l) ∈ m)
    (hci : ∀ p ∈ m, case_insensitive_equal p.2 l = true → p = (v, l))
    (hH : hash32 l ≠ 0)
    (huniq : ∀ p ∈ m, hash32 p.2 = hash32 l → p = (v, l)) :
    to_enum_insensitive m (l.map toUpperByte) = .ok v ∧
      to_enum_insensitive m (l.map toLowerByte) = .ok v ∧
      to_enum (build_hash_table m) l = .ok v := by
  have hup : ∀ a : Label, case_insensitive_equal a (l.map toUpperByte) = true ↔
      case_insensitive_equal a l = true := by
    intro a
    rw [ci_eq_iff_map, ci_eq_iff_map, map_lower_upper]
  have hlo : ∀ a : Label, case_insensitive_equal a (l.map toLowerByte) = true ↔
      case_insensitive_equal a l = true := by
    intro a
    rw [ci_eq_iff_map, ci_eq_iff_map, map_lower_lower]
  have hrefl : case_insensitive_equal l l = true := (ci_eq_iff_map l l).mpr rfl
  refine ⟨?_, ?_, lookup_built m v l hmem hH huniq⟩
  · exact insensitive_ok m v l (l.map toUpperByte) hmem ((hup l).mpr hrefl)
      (fun p hp hq => hci p hp ((hup p.2).mp hq))
  · exact insensitive_ok m v l (l.map toLowerByte) hmem ((hlo l).mpr hrefl)
      (fun p hp hq => hci p hp ((hlo p.2).mp hq))

/-- Witness for the amended C8 at the table `[(0, "x"), (1, "y")]` and
its entry `(0, "x")`. -/
theorem C8_agreement_amended_witness :
    (((0 : Nat), ([120] : Label)) ∈
        ([((0 : Nat), [120]), (1, [121])] : List (Nat × Label))) ∧
    (∀ p ∈ ([((0 : Nat), [120]), (1, [121])] : List (Nat × Label)),
      case_insensitive_equal p.2 [120] = true → p = (0, [120])) ∧
    hash32 [120] ≠ 0 ∧
    (∀ p ∈ ([((0 : Nat), [120]), (1, [121])] : List (Nat × Label)),
      hash32 p.2 = hash32 [120] → p = (0, [120])) ∧
    (to_enum_insensitive ([((0 : Nat), [120]), (1, [121])] : List (Nat × Label))
        (([120] : Label).map toUpperByte) = .ok 0 ∧
      to_enum_insensitive ([((0 : Nat), [120]), (1, [121])] : List (Nat × Label))
        (([120] : Label).map toLowerByte) = .ok 0 ∧
      to_enum (build_hash_table ([((0 : Nat), [120]), (1, [121])] : List (Nat × Label)))
        [120] = .ok 0) := by
  refine ⟨by decide, by decide, by decide, by decide, ?_⟩
  exact C8_agreement_amended _ 0 [120] (by decide) (by decide) (by decide) (by decide)

/-- C9 (on the code's `get_enum_all` and the modelled `get_string_all`,
the C++ `get_string_all` being ill-formed as written): both
enumerations return exactly the `N` values, respectively labels, of the
pair table in insertion order. -/
theorem C9_enumeration {V : Type} [DecidableEq V] [Inhabited V]
    (m : List (V × Label)) :
    get_enum_all m = m.map (fun p => p.1) ∧
      get_string_all m = m.map (fun p => p.2) :=
  ⟨get_enum_all_eq m, get_string_all_eq m⟩

/-- C10: for every table built from at least one entry, the probe loops
terminate — every insertion performed by the build reaches an empty
slot within the `2N` probes modelled by the fuel, at most `N` of the
`2N` slots ever hold a nonzero stored hash, and no lookup runs the
probe loop forever (`to_enum` never yields the nontermination marker
`ub`). -/
theorem C10_probe_termination {V : Type} [DecidableEq V] [Inhabited V]
    (e : V × Label) (m : List (V × Label)) :
    buildStepsTerminate (e :: m) ∧
      nzCount (build_hash_table (e :: m)) ≤ (e :: m).length ∧
      ∀ q, to_enum (build_hash_table (e :: m)) q ≠ .ub := by
  refine ⟨?_, ?_, ?_⟩
  · intro pre e2 post hsplit
    have htlen : (tableBefore (e :: m) pre).length = (e :: m).length * 2 := by
      unfold tableBefore
      rw [length_foldl_insert, List.length_replicate]
    have hcnt : nzCount (tableBefore (e :: m) pre) ≤ pre.length := by
      unfold tableBefore
      have h0 := nzCount_foldl pre
        (List.replicate ((e :: m).length * 2) ((0 : Nat), (default : V)))
      rw [nzCount_replicate] at h0
      omega
    have hprelen : pre.length + 1 ≤ (e :: m).length := by
      rw [hsplit, List.length_append, List.length_cons]
      omega
    have hmlen : 0 < (e :: m).length := by simp
    apply probeInsert_isSome
    · exact Nat.mod_lt _ (by omega)
    · exact exists_zero_slot _ (by omega)
  · have h0 := nzCount_foldl (e :: m)
      (List.replicate ((e :: m).length * 2) ((0 : Nat), (default : V)))
    rw [nzCount_replicate] at h0
    unfold build_hash_table
    omega
  · intro q
    rcases to_enum_built_cases (e :: m) q (by simp) with ⟨v, hv⟩ | hv <;> rw [hv] <;>
      intro hc <;> cases hc
